import Mathlib

/-!
Verification of the email-summarization core shared by the two front ends
(`email_summarizer_streamlit.py`, the "st" / web variant, and
`email_summarizer_tkinter.py`, the "tk" / desktop variant).

Texts are modelled as `List Char` (Python `str` over its `\n`-separated
lines).  Each Python regex substitution used by the sources is translated
into an executable Lean function that reproduces the substitution's
left-to-right, greedy, backtracking behaviour on the specific pattern.
-/

/-- Convert a string literal to the `List Char` representation used
throughout this development. -/
def str (s : String) : List Char := s.data

/-- Python `str` whitespace as matched by `\s` and removed by `str.strip`
(ASCII fragment, which covers every character the sources manipulate). -/
def isWs (c : Char) : Bool :=
  c = ' ' || c = '\t' || c = '\n' || c = '\r' || c = '\x0b' || c = '\x0c'

/-- ASCII lower-casing, used to model `re.IGNORECASE` matching. -/
def toLowerA (c : Char) : Char :=
  if 'A' ≤ c ∧ c ≤ 'Z' then Char.ofNat (c.toNat + 32) else c

/-- Split on `'\n'`, exactly like Python `s.split('\n')`: always returns at
least one piece, pieces contain no newline. -/
def splitLines : List Char → List (List Char)
  | [] => [[]]
  | c :: cs =>
    if c = '\n' then [] :: splitLines cs
    else
      match splitLines cs with
      | l :: ls => (c :: l) :: ls
      | [] => [[c]]

/-- Re-join the pieces produced by `splitLines` with `'\n'`. -/
def joinLines : List (List Char) → List Char
  | [] => []
  | [l] => l
  | l :: ls => l ++ '\n' :: joinLines ls

/-- Python `str.strip()`: drop leading and trailing whitespace. -/
def stripWs (t : List Char) : List Char :=
  (((t.dropWhile isWs).reverse.dropWhile isWs)).reverse

/-- Match the regex fragment `\s*\n` (greedy) at the head of the list:
returns the suffix after the last `'\n'` reachable through whitespace,
or `none` when the fragment does not match. -/
def wsStarNl : List Char → Option (List Char)
  | [] => none
  | c :: cs =>
    if isWs c then
      match wsStarNl cs with
      | some r => some r
      | none => if c = '\n' then some cs else none
    else none

/-- Fuel-indexed worker for `collapseWS`: the fuel bounds the recursion
depth and is always instantiated with the input length, which suffices
because every step consumes at least one character. -/
def collapseWSF : Nat → List Char → List Char
  | _, [] => []
  | 0, t => t
  | fuel + 1, c :: cs =>
    if c = '\n' then
      match wsStarNl cs with
      | some r => '\n' :: '\n' :: collapseWSF fuel r
      | none => c :: collapseWSF fuel cs
    else c :: collapseWSF fuel cs

/-- `re.sub(r'\n\s*\n', '\n\n', t)`: collapse every whitespace run that
contains at least two newlines into exactly one blank line, scanning left
to right and resuming after each replaced match. -/
def collapseWS (t : List Char) : List Char := collapseWSF t.length t

/-- Fuel-indexed worker for `wsCollapsedOk`. -/
def wsCollapsedOkF : Nat → List Char → Bool
  | _, [] => true
  | 0, _ => true
  | fuel + 1, c :: cs =>
    if c = '\n' then
      match wsStarNl cs with
      | some r => decide (cs = '\n' :: r) && wsCollapsedOkF fuel r
      | none => wsCollapsedOkF fuel cs
    else wsCollapsedOkF fuel cs

/-- Structural check mirroring `collapseWS`: `true` exactly when every
`\n\s*\n` match in the text is already the two-character `"\n\n"`, so the
collapsing substitution leaves the text unchanged. -/
def wsCollapsedOk (t : List Char) : Bool := wsCollapsedOkF t.length t

/-- The header labels of `^(From|To|Date|Subject|Cc|Bcc):.*$`. -/
def headerLabels : List (List Char) :=
  [str "From", str "To", str "Date", str "Subject", str "Cc", str "Bcc"]

/-- Does a line match `^(From|To|Date|Subject|Cc|Bcc):` (case-sensitive)? -/
def isHeaderLine (l : List Char) : Bool :=
  headerLabels.any fun lab => (lab ++ [':']).isPrefixOf l

/-- Does a line match `^>` (quoted reply marker)? -/
def isQuoteLine : List Char → Bool
  | '>' :: _ => true
  | _ => false

/-- `re.sub(r'^…$', '', t, flags=re.MULTILINE)` for a line predicate `p`:
blank the content of every matching line, keeping the newlines. -/
def blankIf (p : List Char → Bool) (t : List Char) : List Char :=
  joinLines ((splitLines t).map fun l => if p l then [] else l)

/-- Header-line removal shared by both variants. -/
def removeHeaders (t : List Char) : List Char := blankIf isHeaderLine t

/-- Quoted-line removal shared by both variants. -/
def removeQuoted (t : List Char) : List Char := blankIf isQuoteLine t

/-- Salutation alternatives of the web variant's signature regex, in
pattern order, lower-cased for `re.IGNORECASE` matching. -/
def salsSt : List (List Char) :=
  [str "best regards", str "sincerely", str "thanks", str "regards",
   str "best", str "cheers"]

/-- Salutation alternatives of the desktop variant (no `Cheers`). -/
def salsTk : List (List Char) :=
  [str "best regards", str "sincerely", str "thanks", str "regards",
   str "best"]

/-- Case-insensitive literal match of a (lower-case) pattern at the head
of the text. -/
def matchCI : List Char → List Char → Bool
  | [], _ => true
  | _ :: _, [] => false
  | p :: ps, c :: cs => p = toLowerA c && matchCI ps cs

/-- Match the regex fragment `,?\s*\n` at the head of the list. -/
def afterSal (t : List Char) : Bool :=
  match t with
  | ',' :: rest => (wsStarNl rest).isSome
  | _ => (wsStarNl t).isSome

/-- Does the signature pattern `(sal₁|…|salₖ),?\s*\n` match at the head of
the text? -/
def sigAt (sals : List (List Char)) (t : List Char) : Bool :=
  sals.any fun s => matchCI s t && afterSal (t.drop s.length)

/-- `re.sub(r'(sal₁|…|salₖ),?\s*\n.*', '', t, flags=re.IGNORECASE|re.DOTALL)`:
delete everything from the first position where the signature pattern
matches (the `.*` with `DOTALL` swallows the rest of the text). -/
def removeSig (sals : List (List Char)) : List Char → List Char
  | [] => []
  | c :: cs => if sigAt sals (c :: cs) then [] else c :: removeSig sals cs

/-- `true` when the signature pattern matches at no position of the text. -/
def sigFree (sals : List (List Char)) : List Char → Bool
  | [] => true
  | c :: cs => !sigAt sals (c :: cs) && sigFree sals cs

/-- Length of the leading run of newlines. -/
def nlRun : List Char → Nat
  | '\n' :: cs => nlRun cs + 1
  | _ => 0

/-- Fuel-indexed worker for `collapseNl`. -/
def collapseNlF : Nat → List Char → List Char
  | _, [] => []
  | 0, t => t
  | fuel + 1, c :: cs =>
    if c = '\n' ∧ 2 ≤ nlRun cs then
      '\n' :: '\n' :: collapseNlF fuel (cs.drop (nlRun cs))
    else c :: collapseNlF fuel cs

/-- `re.sub(r'\n{3,}', '\n\n', t)`: collapse every run of three or more
newlines into exactly two (web variant only). -/
def collapseNl (t : List Char) : List Char := collapseNlF t.length t

/-- Does the text contain three consecutive newlines? -/
def hasTripleNl : List Char → Bool
  | [] => false
  | c :: cs => (decide (c = '\n') && decide (2 ≤ nlRun cs)) || hasTripleNl cs

/-- `preprocess_email` of `email_summarizer_streamlit.py` (lines 94-112):
whitespace collapse, header blanking, quote blanking, signature cut,
newline-run collapse, strip. -/
def preprocess_email_st (t : List Char) : List Char :=
  stripWs (collapseNl (removeSig salsSt (removeQuoted (removeHeaders (collapseWS t)))))

/-- `preprocess_email` of `email_summarizer_tkinter.py` (lines 153-168):
same pipeline, without the `Cheers` salutation and without the final
`\n{3,}` collapse. -/
def preprocess_email_tk (t : List Char) : List Char :=
  stripWs (removeSig salsTk (removeQuoted (removeHeaders (collapseWS t))))

/-- `lines = email_text.strip().split('\n'); first_line = lines[0] if lines
else email_text[:60]` — the `else` arm is kept although `split` never
returns an empty list. -/
def firstLineOr (t : List Char) : List Char :=
  match splitLines (stripWs t) with
  | l :: _ => l
  | [] => t.take 60

/-- `if len(subject) > 60: subject = subject[:57] + "..."`. -/
def truncate60 (s : List Char) : List Char :=
  if 60 < s.length then s.take 57 ++ str "..." else s

/-- `re.sub(r'^Subject:\s*', '', subject, flags=re.IGNORECASE)` (web
variant only). -/
def stripSubjectLabel (s : List Char) : List Char :=
  if (s.take 8).map toLowerA = str "subject:" then (s.drop 8).dropWhile isWs
  else s

/-- `extract_subject` of the web variant (lines 78-92). -/
def extract_subject_st (t : List Char) : List Char :=
  truncate60 (stripSubjectLabel (stripWs (firstLineOr t)))

/-- `extract_subject` of the desktop variant (lines 141-151): no
`Subject:` label removal. -/
def extract_subject_tk (t : List Char) : List Char :=
  truncate60 (stripWs (firstLineOr t))

/-- Modelled from the claim and spec words for comparison with the code
(C4): "takes the first line of the newline-split input if any line exists
(otherwise the first 60 characters of the raw text), strips leading and
trailing whitespace", then the 57+"..." truncation.  Unlike the code, the
input is not whitespace-stripped before splitting. -/
def extractSubjectSpec (t : List Char) : List Char :=
  let first :=
    match splitLines t with
    | l :: _ => l
    | [] => t.take 60
  truncate60 (stripWs first)

/-- The keyword arguments passed to the summarization pipeline call. -/
structure GenParams where
  max_length : Nat
  min_length : Nat
  do_sample : Bool
deriving DecidableEq

/-- One element of the list returned by the summarization pipeline
(`summary_result[i]['summary_text']`). -/
structure Candidate where
  summary_text : List Char
deriving DecidableEq

/-- The external summarization capability: takes the generation parameters
and the input text, and either returns a candidate list or raises an
exception (modelled as `Except.error` carrying `str(e)`). -/
def Capability : Type :=
  GenParams → List Char → Except (List Char) (List Candidate)

/-- `max_length=150, min_length=30, do_sample=False`, as passed at the
call sites in both variants. -/
def genParams : GenParams := ⟨150, 30, false⟩

/-- Outcome of one summarization request as observed by the caller:
the extracted subject, the summary text (or error message), the success
flag, whether a truncation warning was surfaced, and the list of
(input, parameters) invocations made on the capability. -/
structure SummOut where
  subject : List Char
  summary : List Char
  success : Bool
  truncWarned : Bool
  calls : List (List Char × GenParams)
deriving DecidableEq

/-- `if len(processed_text) > max_length: processed_text =
processed_text[:max_length]` with `max_length = 1024`. -/
def truncate1024 (t : List Char) : List Char :=
  if 1024 < t.length then t.take 1024 else t

/-- `summarize_email` of the web variant (lines 114-140): extract the
subject, preprocess, truncate to 1024 characters with an `st.warning`
when truncation occurred, invoke the capability once with `genParams`,
and wrap success or failure; an empty candidate list makes the
`summary_result[0]` subscript raise an `IndexError`, which the same
`except` clause turns into the error message. -/
def summarize_email_st (email_text : List Char) (cap : Capability) : SummOut :=
  let subject := extract_subject_st email_text
  let processed := preprocess_email_st email_text
  let warned : Bool := decide (1024 < processed.length)
  let sent := truncate1024 processed
  match cap genParams sent with
  | .ok (c :: _) => ⟨subject, c.summary_text, true, warned, [(sent, genParams)]⟩
  | .ok [] =>
    ⟨subject, str "Error generating summary: list index out of range",
     false, warned, [(sent, genParams)]⟩
  | .error e =>
    ⟨subject, str "Error generating summary: " ++ e, false, warned,
     [(sent, genParams)]⟩

/-- `perform_summarization` of the desktop variant (lines 191-216): same
shape, but the truncation is silent (no warning signal exists in this
code path) and a failure surfaces through `summarization_error` as
`"Failed to summarize the email:\n" + str(e)`. -/
def summarize_email_tk (email_text : List Char) (cap : Capability) : SummOut :=
  let subject := extract_subject_tk email_text
  let sent := truncate1024 (preprocess_email_tk email_text)
  match cap genParams sent with
  | .ok (c :: _) => ⟨subject, c.summary_text, true, false, [(sent, genParams)]⟩
  | .ok [] =>
    ⟨subject, str "Failed to summarize the email:\n" ++
       str "list index out of range", false, false, [(sent, genParams)]⟩
  | .error e =>
    ⟨subject, str "Failed to summarize the email:\n" ++ e, false, false,
     [(sent, genParams)]⟩

/-- A capability that always succeeds with one fixed candidate, used to
instantiate the theorems at concrete inputs. -/
def okCap : Capability := fun _ _ => .ok [⟨str "short summary"⟩]

/-- A capability that always raises, used to instantiate the failure-path
theorems at concrete inputs. -/
def failCap : Capability := fun _ _ => .error (str "boom")

theorem splitLines_ne_nil (t : List Char) : splitLines t ≠ [] := by
  induction t with
  | nil => simp [splitLines]
  | cons c cs ih =>
    simp only [splitLines]
    split
    · simp
    · cases h : splitLines cs with
      | nil => simp
      | cons l ls => simp

theorem joinLines_cons (l : List Char) (ls : List (List Char)) (h : ls ≠ []) :
    joinLines (l :: ls) = l ++ '\n' :: joinLines ls := by
  cases ls with
  | nil => exact absurd rfl h
  | cons a as => rfl

theorem joinLines_splitLines (t : List Char) : joinLines (splitLines t) = t := by
  induction t with
  | nil => rfl
  | cons c cs ih =>
    by_cases hc : c = '\n'
    · subst hc
      rw [show splitLines ('\n' :: cs) = [] :: splitLines cs by simp [splitLines]]
      rw [joinLines_cons _ _ (splitLines_ne_nil cs), ih]
      rfl
    · rw [show splitLines (c :: cs) =
          (match splitLines cs with
           | l :: ls => (c :: l) :: ls
           | [] => [[c]]) by simp [splitLines, hc]]
      cases h : splitLines cs with
      | nil => exact absurd h (splitLines_ne_nil cs)
      | cons l ls =>
        rw [h] at ih
        cases ls with
        | nil =>
          simpa [joinLines] using congrArg (c :: ·) ih
        | cons a as =>
          rw [joinLines_cons _ _ (by simp)]
          rw [joinLines_cons _ _ (by simp)] at ih
          simpa using congrArg (c :: ·) ih

theorem splitLines_no_nl (t : List Char) : ∀ l ∈ splitLines t, '\n' ∉ l := by
  induction t with
  | nil => simp [splitLines]
  | cons c cs ih =>
    by_cases hc : c = '\n'
    · subst hc
      rw [show splitLines ('\n' :: cs) = [] :: splitLines cs by simp [splitLines]]
      intro l hl
      rcases List.mem_cons.mp hl with h | h
      · subst h; simp
      · exact ih l h
    · rw [show splitLines (c :: cs) =
          (match splitLines cs with
           | l :: ls => (c :: l) :: ls
           | [] => [[c]]) by simp [splitLines, hc]]
      cases h : splitLines cs with
      | nil => exact absurd h (splitLines_ne_nil cs)
      | cons l ls =>
        intro x hx
        rcases List.mem_cons.mp hx with h1 | h1
        · subst h1
          have := ih l (by rw [h]; simp)
          simp only [List.mem_cons]
          rintro (h2 | h2)
          · exact hc h2.symm
          · exact this h2
        · exact ih x (by rw [h]; exact List.mem_cons_of_mem _ h1)

theorem splitLines_of_no_nl (t : List Char) (h : '\n' ∉ t) : splitLines t = [t] := by
  induction t with
  | nil => rfl
  | cons c cs ih =>
    have hc : ¬ c = '\n' := fun hh => h (by simp [hh])
    have hcs : '\n' ∉ cs := fun hh => h (List.mem_cons_of_mem _ hh)
    rw [show splitLines (c :: cs) =
        (match splitLines cs with
         | l :: ls => (c :: l) :: ls
         | [] => [[c]]) by simp [splitLines, hc]]
    rw [ih hcs]

theorem splitLines_append (a b : List Char) (h : '\n' ∉ a) :
    splitLines (a ++ '\n' :: b) = a :: splitLines b := by
  induction a with
  | nil => simp [splitLines]
  | cons c cs ih =>
    have hc : ¬ c = '\n' := fun hh => h (by simp [hh])
    have hcs : '\n' ∉ cs := fun hh => h (List.mem_cons_of_mem _ hh)
    rw [List.cons_append]
    rw [show splitLines (c :: (cs ++ '\n' :: b)) =
        (match splitLines (cs ++ '\n' :: b) with
         | l :: ls => (c :: l) :: ls
         | [] => [[c]]) by simp [splitLines, hc]]
    rw [ih hcs]

theorem blankIf_id (p : List Char → Bool) (t : List Char)
    (h : ∀ l ∈ splitLines t, p l = false) : blankIf p t = t := by
  unfold blankIf
  rw [show (splitLines t).map (fun l => if p l then [] else l) =
      (splitLines t).map id from
    List.map_congr_left fun l hl => by simp [h l hl]]
  rw [List.map_id]
  exact joinLines_splitLines t

theorem stripWs_eq_rdrop (t : List Char) :
    stripWs t = List.rdropWhile isWs (List.dropWhile isWs t) := rfl

theorem dropWhile_stripWs (t : List Char) :
    List.dropWhile isWs (stripWs t) = stripWs t := by
  rw [stripWs_eq_rdrop, List.dropWhile_eq_self_iff]
  intro hl
  have hpre := List.rdropWhile_prefix isWs (List.dropWhile isWs t)
  have hlen : 0 < (List.dropWhile isWs t).length := by
    have := hpre.length_le
    omega
  have hget := List.dropWhile_get_zero_not isWs t hlen
  have heq :
      (List.rdropWhile isWs (List.dropWhile isWs t)).get ⟨0, hl⟩ =
        (List.dropWhile isWs t).get ⟨0, hlen⟩ := by
    simpa [List.get_eq_getElem] using hpre.getElem hl
  rw [heq]
  exact hget

theorem stripWs_idem (t : List Char) : stripWs (stripWs t) = stripWs t := by
  conv_lhs => rw [stripWs_eq_rdrop, dropWhile_stripWs]
  rw [stripWs_eq_rdrop, List.rdropWhile_idempotent]

theorem wsStarNl_none_of_no_nl (l : List Char) (h : '\n' ∉ l) :
    wsStarNl l = none := by
  induction l with
  | nil => rfl
  | cons c cs ih =>
    have hc : ¬ c = '\n' := fun hh => h (by simp [hh])
    have hcs : '\n' ∉ cs := fun hh => h (List.mem_cons_of_mem _ hh)
    simp only [wsStarNl, ih hcs]
    split
    · simp [hc]
    · rfl

theorem wsStarNl_some_length (l r : List Char) (h : wsStarNl l = some r) :
    r.length < l.length := by
  induction l generalizing r with
  | nil => simp [wsStarNl] at h
  | cons c cs ih =>
    rw [show wsStarNl (c :: cs) =
        (if isWs c then
          match wsStarNl cs with
          | some r => some r
          | none => if c = '\n' then some cs else none
        else none) from rfl] at h
    by_cases hw : isWs c
    · rw [if_pos hw] at h
      rcases hx : wsStarNl cs with _ | r'
      · rw [hx] at h
        by_cases hc : c = '\n'
        · rw [if_pos hc] at h
          cases h
          simp
        · rw [if_neg hc] at h
          cases h
      · rw [hx] at h
        injection h with h2
        subst h2
        exact Nat.lt_succ_of_lt (ih _ hx)
    · rw [if_neg hw] at h
      cases h

theorem collapseWSF_succ (f : Nat) (c : Char) (cs : List Char) :
    collapseWSF (f + 1) (c :: cs) =
      if c = '\n' then
        match wsStarNl cs with
        | some r => '\n' :: '\n' :: collapseWSF f r
        | none => c :: collapseWSF f cs
      else c :: collapseWSF f cs := rfl

theorem collapseWSF_fuel :
    ∀ f g, ∀ t : List Char, t.length ≤ g → g ≤ f →
      collapseWSF g t = collapseWS t := by
  intro f
  induction f with
  | zero =>
    intro g t htg hgf
    have hg : g = 0 := Nat.le_zero.mp hgf
    subst hg
    have ht : t = [] := List.length_eq_zero.mp (Nat.le_zero.mp htg)
    subst ht
    rfl
  | succ f ih =>
    intro g t htg hgf
    cases t with
    | nil => cases g <;> rfl
    | cons c cs =>
      cases g with
      | zero => simp at htg
      | succ g' =>
        have hcs : cs.length ≤ g' := by
          simp only [List.length_cons] at htg
          omega
        have hg'f : g' ≤ f := by omega
        show collapseWSF (g' + 1) (c :: cs) = collapseWS (c :: cs)
        rw [show collapseWS (c :: cs) = collapseWSF (cs.length + 1) (c :: cs)
          from rfl]
        rw [collapseWSF_succ, collapseWSF_succ]
        by_cases hc : c = '\n'
        · rw [if_pos hc, if_pos hc]
          rcases hx : wsStarNl cs with _ | r
          · show c :: collapseWSF g' cs = c :: collapseWSF cs.length cs
            rw [ih g' cs hcs hg'f]
            rw [show collapseWSF cs.length cs = collapseWS cs from
              ih cs.length cs (Nat.le_refl _) (by omega)]
          · have hr : r.length ≤ cs.length :=
              Nat.le_of_lt (wsStarNl_some_length cs r hx)
            show '\n' :: '\n' :: collapseWSF g' r =
              '\n' :: '\n' :: collapseWSF cs.length r
            rw [ih g' r (by omega) hg'f]
            rw [show collapseWSF cs.length r = collapseWS r from
              ih cs.length r hr (by omega)]
        · rw [if_neg hc, if_neg hc]
          rw [ih g' cs hcs hg'f]
          rw [show collapseWSF cs.length cs = collapseWS cs from
            ih cs.length cs (Nat.le_refl _) (by omega)]

theorem collapseWS_cons_not_nl (c : Char) (cs : List Char) (hc : ¬ c = '\n') :
    collapseWS (c :: cs) = c :: collapseWS cs := by
  show collapseWSF (cs.length + 1) (c :: cs) = c :: collapseWS cs
  rw [collapseWSF_succ, if_neg hc]
  rfl

theorem collapseWS_cons_nl_none (cs : List Char) (h : wsStarNl cs = none) :
    collapseWS ('\n' :: cs) = '\n' :: collapseWS cs := by
  show collapseWSF (cs.length + 1) ('\n' :: cs) = '\n' :: collapseWS cs
  rw [collapseWSF_succ, if_pos rfl, h]
  rfl

theorem collapseWS_cons_nl_some (cs r : List Char) (h : wsStarNl cs = some r) :
    collapseWS ('\n' :: cs) = '\n' :: '\n' :: collapseWS r := by
  show collapseWSF (cs.length + 1) ('\n' :: cs) = '\n' :: '\n' :: collapseWS r
  rw [collapseWSF_succ, if_pos rfl, h]
  show '\n' :: '\n' :: collapseWSF cs.length r = '\n' :: '\n' :: collapseWS r
  rw [collapseWSF_fuel cs.length cs.length r
    (Nat.le_of_lt (wsStarNl_some_length cs r h)) (Nat.le_refl _)]

theorem collapseWS_of_no_nl (t : List Char) (h : '\n' ∉ t) :
    collapseWS t = t := by
  induction t with
  | nil => rfl
  | cons c cs ih =>
    have hc : ¬ c = '\n' := fun hh => h (by simp [hh])
    have hcs : '\n' ∉ cs := fun hh => h (List.mem_cons_of_mem _ hh)
    rw [collapseWS_cons_not_nl c cs hc, ih hcs]

theorem collapseWS_append_no_nl (a s : List Char) (h : '\n' ∉ a) :
    collapseWS (a ++ s) = a ++ collapseWS s := by
  induction a with
  | nil => simp
  | cons c cs ih =>
    have hc : ¬ c = '\n' := fun hh => h (by simp [hh])
    have hcs : '\n' ∉ cs := fun hh => h (List.mem_cons_of_mem _ hh)
    rw [List.cons_append, collapseWS_cons_not_nl c _ hc, ih hcs, List.cons_append]

theorem wsCollapsedOkF_succ (f : Nat) (c : Char) (cs : List Char) :
    wsCollapsedOkF (f + 1) (c :: cs) =
      if c = '\n' then
        match wsStarNl cs with
        | some r => decide (cs = '\n' :: r) && wsCollapsedOkF f r
        | none => wsCollapsedOkF f cs
      else wsCollapsedOkF f cs := rfl

theorem wsCollapsedOkF_fuel :
    ∀ f g, ∀ t : List Char, t.length ≤ g → g ≤ f →
      wsCollapsedOkF g t = wsCollapsedOk t := by
  intro f
  induction f with
  | zero =>
    intro g t htg hgf
    have hg : g = 0 := Nat.le_zero.mp hgf
    subst hg
    have ht : t = [] := List.length_eq_zero.mp (Nat.le_zero.mp htg)
    subst ht
    rfl
  | succ f ih =>
    intro g t htg hgf
    cases t with
    | nil => cases g <;> rfl
    | cons c cs =>
      cases g with
      | zero => simp at htg
      | succ g' =>
        have hcs : cs.length ≤ g' := by
          simp only [List.length_cons] at htg
          omega
        have hg'f : g' ≤ f := by omega
        show wsCollapsedOkF (g' + 1) (c :: cs) = wsCollapsedOk (c :: cs)
        rw [show wsCollapsedOk (c :: cs) = wsCollapsedOkF (cs.length + 1) (c :: cs)
          from rfl]
        rw [wsCollapsedOkF_succ, wsCollapsedOkF_succ]
        by_cases hc : c = '\n'
        · rw [if_pos hc, if_pos hc]
          rcases hx : wsStarNl cs with _ | r
          · show wsCollapsedOkF g' cs = wsCollapsedOkF cs.length cs
            rw [ih g' cs hcs hg'f]
            rw [show wsCollapsedOkF cs.length cs = wsCollapsedOk cs from
              ih cs.length cs (Nat.le_refl _) (by omega)]
          · have hr : r.length ≤ cs.length :=
              Nat.le_of_lt (wsStarNl_some_length cs r hx)
            show (decide (cs = '\n' :: r) && wsCollapsedOkF g' r) =
              (decide (cs = '\n' :: r) && wsCollapsedOkF cs.length r)
            rw [ih g' r (by omega) hg'f]
            rw [show wsCollapsedOkF cs.length r = wsCollapsedOk r from
              ih cs.length r hr (by omega)]
        · rw [if_neg hc, if_neg hc]
          rw [ih g' cs hcs hg'f]
          rw [show wsCollapsedOkF cs.length cs = wsCollapsedOk cs from
            ih cs.length cs (Nat.le_refl _) (by omega)]

theorem wsCollapsedOk_cons_not_nl (c : Char) (cs : List Char) (hc : ¬ c = '\n') :
    wsCollapsedOk (c :: cs) = wsCollapsedOk cs := by
  show wsCollapsedOkF (cs.length + 1) (c :: cs) = wsCollapsedOk cs
  rw [wsCollapsedOkF_succ, if_neg hc]
  rfl

theorem wsCollapsedOk_cons_nl_none (cs : List Char) (h : wsStarNl cs = none) :
    wsCollapsedOk ('\n' :: cs) = wsCollapsedOk cs := by
  show wsCollapsedOkF (cs.length + 1) ('\n' :: cs) = wsCollapsedOk cs
  rw [wsCollapsedOkF_succ, if_pos rfl, h]
  rfl

theorem wsCollapsedOk_cons_nl_some (cs r : List Char) (h : wsStarNl cs = some r) :
    wsCollapsedOk ('\n' :: cs) = (decide (cs = '\n' :: r) && wsCollapsedOk r) := by
  show wsCollapsedOkF (cs.length + 1) ('\n' :: cs) =
    (decide (cs = '\n' :: r) && wsCollapsedOk r)
  rw [wsCollapsedOkF_succ, if_pos rfl, h]
  show (decide (cs = '\n' :: r) && wsCollapsedOkF cs.length r) = _
  rw [wsCollapsedOkF_fuel cs.length cs.length r
    (Nat.le_of_lt (wsStarNl_some_length cs r h)) (Nat.le_refl _)]

theorem collapseWS_fix_aux :
    ∀ n, ∀ t : List Char, t.length ≤ n → wsCollapsedOk t = true → collapseWS t = t := by
  intro n
  induction n with
  | zero =>
    intro t ht _
    rw [List.length_eq_zero.mp (Nat.le_zero.mp ht)]
    rfl
  | succ n ih =>
    intro t ht hok
    match t with
    | [] => rfl
    | c :: cs =>
      have hcs_len : cs.length ≤ n := by
        simp only [List.length_cons] at ht
        omega
      by_cases hc : c = '\n'
      · subst hc
        rcases hw : wsStarNl cs with _ | r
        · rw [collapseWS_cons_nl_none cs hw]
          rw [wsCollapsedOk_cons_nl_none cs hw] at hok
          rw [ih cs hcs_len hok]
        · rw [collapseWS_cons_nl_some cs r hw]
          rw [wsCollapsedOk_cons_nl_some cs r hw] at hok
          simp only [Bool.and_eq_true, decide_eq_true_eq] at hok
          obtain ⟨hcs, hokr⟩ := hok
          have hrlen : r.length ≤ n := by
            have h3 : r.length < cs.length := wsStarNl_some_length cs r hw
            omega
          rw [ih r hrlen hokr, hcs]
      · rw [collapseWS_cons_not_nl c cs hc]
        rw [wsCollapsedOk_cons_not_nl c cs hc] at hok
        rw [ih cs hcs_len hok]

theorem collapseWS_fix (t : List Char) (h : wsCollapsedOk t = true) :
    collapseWS t = t :=
  collapseWS_fix_aux t.length t (Nat.le_refl _) h

theorem sigAt_nil (sals : List (List Char)) : sigAt sals [] = false := by
  rw [Bool.eq_false_iff]
  intro h
  rw [sigAt, List.any_eq_true] at h
  obtain ⟨s, hs, hconj⟩ := h
  rw [List.drop_nil] at hconj
  rw [show afterSal [] = false from rfl, Bool.and_false] at hconj
  exact Bool.false_ne_true hconj

theorem removeSig_of_sigFree (sals : List (List Char)) (t : List Char)
    (h : sigFree sals t = true) : removeSig sals t = t := by
  induction t with
  | nil => rfl
  | cons c cs ih =>
    simp only [sigFree, Bool.and_eq_true, Bool.not_eq_true'] at h
    obtain ⟨h1, h2⟩ := h
    simp only [removeSig, h1, Bool.false_eq_true, if_false]
    rw [ih h2]

theorem removeSig_eq_take (sals : List (List Char)) :
    ∀ (t : List Char) (i : Nat), (∀ j, j < i → sigAt sals (t.drop j) = false) →
      sigAt sals (t.drop i) = true → removeSig sals t = t.take i := by
  intro t
  induction t with
  | nil =>
    intro i _ hi
    rw [List.drop_nil] at hi
    rw [sigAt_nil] at hi
    exact absurd hi (by simp)
  | cons c cs ih =>
    intro i hlt hi
    cases i with
    | zero =>
      rw [List.drop_zero] at hi
      simp only [removeSig, hi, if_true, List.take_zero]
    | succ i' =>
      have h0 : sigAt sals (c :: cs) = false := by
        have := hlt 0 (Nat.succ_pos _)
        rwa [List.drop_zero] at this
      simp only [removeSig, h0, Bool.false_eq_true, if_false, List.take_succ_cons]
      congr 1
      apply ih i'
      · intro j hj
        have := hlt (j + 1) (by omega)
        simpa using this
      · simpa using hi

theorem nlRun_two (cs : List Char) (h : 2 ≤ nlRun cs) :
    ∃ ds, cs = '\n' :: '\n' :: ds := by
  match cs with
  | [] => simp [nlRun] at h
  | c :: cs' =>
    by_cases hc : c = '\n'
    · subst hc
      match cs' with
      | [] => simp [nlRun] at h
      | d :: ds' =>
        by_cases hd : d = '\n'
        · subst hd
          exact ⟨ds', rfl⟩
        · rw [show nlRun ('\n' :: d :: ds') = nlRun (d :: ds') + 1 from rfl] at h
          rw [show nlRun (d :: ds') = 0 by
            unfold nlRun
            split
            · simp_all
            · rfl] at h
          omega
    · rw [show nlRun (c :: cs') = 0 by
        unfold nlRun
        split
        · simp_all
        · rfl] at h
      omega

theorem hasTripleNl_cons_false (c : Char) (cs : List Char)
    (h : hasTripleNl (c :: cs) = false) :
    hasTripleNl cs = false ∧ ¬ (c = '\n' ∧ 2 ≤ nlRun cs) := by
  simp only [hasTripleNl, Bool.or_eq_false_iff, Bool.and_eq_false_iff] at h
  obtain ⟨h1, h2⟩ := h
  refine ⟨h2, ?_⟩
  rintro ⟨hc, hr⟩
  rcases h1 with h1 | h1
  · simp [hc] at h1
  · simp [hr] at h1

theorem collapseNlF_succ (f : Nat) (c : Char) (cs : List Char) :
    collapseNlF (f + 1) (c :: cs) =
      if c = '\n' ∧ 2 ≤ nlRun cs then
        '\n' :: '\n' :: collapseNlF f (cs.drop (nlRun cs))
      else c :: collapseNlF f cs := rfl

theorem collapseNlF_fuel :
    ∀ f g, ∀ t : List Char, t.length ≤ g → g ≤ f →
      collapseNlF g t = collapseNl t := by
  intro f
  induction f with
  | zero =>
    intro g t htg hgf
    have hg : g = 0 := Nat.le_zero.mp hgf
    subst hg
    have ht : t = [] := List.length_eq_zero.mp (Nat.le_zero.mp htg)
    subst ht
    rfl
  | succ f ih =>
    intro g t htg hgf
    cases t with
    | nil => cases g <;> rfl
    | cons c cs =>
      cases g with
      | zero => simp at htg
      | succ g' =>
        have hcs : cs.length ≤ g' := by
          simp only [List.length_cons] at htg
          omega
        have hg'f : g' ≤ f := by omega
        show collapseNlF (g' + 1) (c :: cs) = collapseNl (c :: cs)
        rw [show collapseNl (c :: cs) = collapseNlF (cs.length + 1) (c :: cs)
          from rfl]
        rw [collapseNlF_succ, collapseNlF_succ]
        have hd : (cs.drop (nlRun cs)).length ≤ cs.length := by
          rw [List.length_drop]
          omega
        split
        · rw [ih g' (cs.drop (nlRun cs)) (by omega) hg'f]
          rw [show collapseNlF cs.length (cs.drop (nlRun cs)) =
              collapseNl (cs.drop (nlRun cs)) from
            ih cs.length (cs.drop (nlRun cs)) hd (by omega)]
        · rw [ih g' cs hcs hg'f]
          rw [show collapseNlF cs.length cs = collapseNl cs from
            ih cs.length cs (Nat.le_refl _) (by omega)]

theorem collapseNl_cons (c : Char) (cs : List Char) :
    collapseNl (c :: cs) =
      if c = '\n' ∧ 2 ≤ nlRun cs then
        '\n' :: '\n' :: collapseNl (cs.drop (nlRun cs))
      else c :: collapseNl cs := by
  show collapseNlF (cs.length + 1) (c :: cs) = _
  rw [collapseNlF_succ]
  split
  · rw [collapseNlF_fuel cs.length cs.length (cs.drop (nlRun cs))
      (by rw [List.length_drop]; omega) (Nat.le_refl _)]
  · rfl

theorem collapseNl_of_no_triple (t : List Char) (h : hasTripleNl t = false) :
    collapseNl t = t := by
  induction t with
  | nil => rfl
  | cons c cs ih =>
    obtain ⟨hcs, hguard⟩ := hasTripleNl_cons_false c cs h
    rw [collapseNl_cons]
    rw [if_neg hguard]
    rw [ih hcs]

theorem length_joinLines_map_le (f : List Char → List Char)
    (hf : ∀ l, (f l).length ≤ l.length) :
    ∀ ls : List (List Char), (joinLines (ls.map f)).length ≤ (joinLines ls).length := by
  intro ls
  induction ls with
  | nil => simp [joinLines]
  | cons a as ih =>
    cases as with
    | nil => simpa [joinLines] using hf a
    | cons b bs =>
      rw [List.map_cons, joinLines_cons _ _ (by simp), joinLines_cons _ _ (by simp)]
      simp only [List.length_append, List.length_cons]
      have := hf a
      omega

theorem length_blankIf_le (p : List Char → Bool) (t : List Char) :
    (blankIf p t).length ≤ t.length := by
  unfold blankIf
  calc (joinLines ((splitLines t).map fun l => if p l then [] else l)).length
      ≤ (joinLines (splitLines t)).length :=
        length_joinLines_map_le _ (fun l => by split <;> simp) _
    _ = t.length := by rw [joinLines_splitLines]

theorem length_collapseWS_le :
    ∀ t : List Char, (collapseWS t).length ≤ t.length := by
  have main : ∀ n, ∀ t : List Char, t.length ≤ n →
      (collapseWS t).length ≤ t.length := by
    intro n
    induction n with
    | zero =>
      intro t ht
      rw [List.length_eq_zero.mp (Nat.le_zero.mp ht)]
      exact Nat.le_refl _
    | succ n ih =>
      intro t ht
      match t with
      | [] => exact Nat.le_refl _
      | c :: cs =>
        have hcs_len : cs.length ≤ n := by
          simp only [List.length_cons] at ht
          omega
        by_cases hc : c = '\n'
        · subst hc
          rcases hw : wsStarNl cs with _ | r
          · rw [collapseWS_cons_nl_none cs hw]
            have := ih cs hcs_len
            simp only [List.length_cons]
            omega
          · have hr : r.length < cs.length := wsStarNl_some_length cs r hw
            rw [collapseWS_cons_nl_some cs r hw]
            have h1 := ih r (by omega)
            simp only [List.length_cons]
            omega
        · rw [collapseWS_cons_not_nl c cs hc]
          have := ih cs hcs_len
          simp only [List.length_cons]
          omega
  exact fun t => main t.length t (Nat.le_refl _)

theorem length_removeSig_le (sals : List (List Char)) :
    ∀ t : List Char, (removeSig sals t).length ≤ t.length := by
  intro t
  induction t with
  | nil => simp [removeSig]
  | cons c cs ih =>
    rw [removeSig]
    split
    · simp
    · simp only [List.length_cons]
      omega

theorem nlRun_le_length : ∀ cs : List Char, nlRun cs ≤ cs.length := by
  intro cs
  induction cs with
  | nil => simp [nlRun]
  | cons c cs' ih =>
    by_cases hc : c = '\n'
    · subst hc
      rw [show nlRun ('\n' :: cs') = nlRun cs' + 1 from rfl]
      simpa using ih
    · rw [show nlRun (c :: cs') = 0 by
        unfold nlRun
        split
        · simp_all
        · rfl]
      simp

theorem length_collapseNl_le :
    ∀ t : List Char, (collapseNl t).length ≤ t.length := by
  have main : ∀ n, ∀ t : List Char, t.length ≤ n →
      (collapseNl t).length ≤ t.length := by
    intro n
    induction n with
    | zero =>
      intro t ht
      rw [List.length_eq_zero.mp (Nat.le_zero.mp ht)]
      exact Nat.le_refl _
    | succ n ih =>
      intro t ht
      match t with
      | [] => exact Nat.le_refl _
      | c :: cs =>
        have hcs_len : cs.length ≤ n := by
          simp only [List.length_cons] at ht
          omega
        rw [collapseNl_cons]
        split
        · rename_i hg
          have hk : 2 ≤ nlRun cs := hg.2
          have h1 := ih (cs.drop (nlRun cs)) (by
            simp only [List.length_drop]
            omega)
          simp only [List.length_cons, List.length_drop] at *
          have hkle : nlRun cs ≤ cs.length := nlRun_le_length cs
          omega
        · have := ih cs hcs_len
          simp only [List.length_cons]
          omega
  exact fun t => main t.length t (Nat.le_refl _)

theorem length_stripWs_le (t : List Char) : (stripWs t).length ≤ t.length := by
  unfold stripWs
  calc ((((t.dropWhile isWs).reverse.dropWhile isWs)).reverse).length
      = (((t.dropWhile isWs).reverse.dropWhile isWs)).length := List.length_reverse _
    _ ≤ ((t.dropWhile isWs).reverse).length := (List.dropWhile_sublist _).length_le
    _ = (t.dropWhile isWs).length := List.length_reverse _
    _ ≤ t.length := (List.dropWhile_sublist _).length_le

theorem length_preprocess_st_le (t : List Char) :
    (preprocess_email_st t).length ≤ t.length := by
  unfold preprocess_email_st removeHeaders removeQuoted
  calc (stripWs (collapseNl (removeSig salsSt (blankIf isQuoteLine
          (blankIf isHeaderLine (collapseWS t)))))).length
      ≤ (collapseNl (removeSig salsSt (blankIf isQuoteLine
          (blankIf isHeaderLine (collapseWS t))))).length := length_stripWs_le _
    _ ≤ (removeSig salsSt (blankIf isQuoteLine
          (blankIf isHeaderLine (collapseWS t)))).length := length_collapseNl_le _
    _ ≤ (blankIf isQuoteLine (blankIf isHeaderLine (collapseWS t))).length :=
          length_removeSig_le _ _
    _ ≤ (blankIf isHeaderLine (collapseWS t)).length := length_blankIf_le _ _
    _ ≤ (collapseWS t).length := length_blankIf_le _ _
    _ ≤ t.length := length_collapseWS_le _

theorem length_preprocess_tk_le (t : List Char) :
    (preprocess_email_tk t).length ≤ t.length := by
  unfold preprocess_email_tk removeHeaders removeQuoted
  calc (stripWs (removeSig salsTk (blankIf isQuoteLine
          (blankIf isHeaderLine (collapseWS t))))).length
      ≤ (removeSig salsTk (blankIf isQuoteLine
          (blankIf isHeaderLine (collapseWS t)))).length := length_stripWs_le _
    _ ≤ (blankIf isQuoteLine (blankIf isHeaderLine (collapseWS t))).length :=
          length_removeSig_le _ _
    _ ≤ (blankIf isHeaderLine (collapseWS t)).length := length_blankIf_le _ _
    _ ≤ (collapseWS t).length := length_blankIf_le _ _
    _ ≤ t.length := length_collapseWS_le _

theorem cons_isPrefixOf_replicate_a (c : Char) (cs : List Char) (hc : ¬ c = 'a')
    (n : Nat) : (c :: cs).isPrefixOf (List.replicate n 'a') = false := by
  cases n with
  | zero => rfl
  | succ m =>
    rw [List.replicate_succ]
    show (c == 'a' && cs.isPrefixOf (List.replicate m 'a')) = false
    simp [hc]

theorem isHeaderLine_replicate_a (n : Nat) :
    isHeaderLine (List.replicate n 'a') = false := by
  rw [isHeaderLine]
  rw [show headerLabels = ['F' :: str "rom", 'T' :: str "o", 'D' :: str "ate",
      'S' :: str "ubject", 'C' :: str "c", 'B' :: str "cc"] from by decide]
  simp only [List.any_cons, List.any_nil, List.cons_append]
  rw [cons_isPrefixOf_replicate_a 'F' _ (by decide) n,
      cons_isPrefixOf_replicate_a 'T' _ (by decide) n,
      cons_isPrefixOf_replicate_a 'D' _ (by decide) n,
      cons_isPrefixOf_replicate_a 'S' _ (by decide) n,
      cons_isPrefixOf_replicate_a 'C' _ (by decide) n,
      cons_isPrefixOf_replicate_a 'B' _ (by decide) n]
  rfl

theorem isQuoteLine_replicate_a (n : Nat) :
    isQuoteLine (List.replicate n 'a') = false := by
  cases n with
  | zero => rfl
  | succ m =>
    rw [List.replicate_succ]
    rfl

theorem no_nl_replicate_a (n : Nat) : '\n' ∉ List.replicate n 'a' := by
  intro h
  have := List.eq_of_mem_replicate h
  exact absurd this (by decide)

theorem blankIf_replicate_a (p : List Char → Bool)
    (hp : ∀ n, p (List.replicate n 'a') = false) (n : Nat) :
    blankIf p (List.replicate n 'a') = List.replicate n 'a' := by
  apply blankIf_id
  intro l hl
  rw [splitLines_of_no_nl _ (no_nl_replicate_a n)] at hl
  rw [List.mem_singleton.mp hl]
  exact hp n

theorem sigAt_cons_head_ne (sals : List (List Char)) (c : Char) (rest : List Char)
    (h : ∀ s ∈ sals, s.head? ≠ some (toLowerA c)) (hne : ∀ s ∈ sals, s ≠ []) :
    sigAt sals (c :: rest) = false := by
  rw [Bool.eq_false_iff]
  intro hx
  rw [sigAt, List.any_eq_true] at hx
  obtain ⟨s, hs, hconj⟩ := hx
  match s, hne s hs with
  | p :: ps, _ =>
    have hp : ¬ p = toLowerA c := fun he => h _ hs (by simp [he])
    rw [show matchCI (p :: ps) (c :: rest) =
        (decide (p = toLowerA c) && matchCI ps rest) from rfl] at hconj
    simp [hp] at hconj

theorem sigFree_replicate_a (sals : List (List Char))
    (h : ∀ s ∈ sals, s.head? ≠ some 'a') (hne : ∀ s ∈ sals, s ≠ []) (n : Nat) :
    sigFree sals (List.replicate n 'a') = true := by
  induction n with
  | zero => rfl
  | succ m ih =>
    rw [List.replicate_succ]
    rw [show sigFree sals ('a' :: List.replicate m 'a') =
        (!sigAt sals ('a' :: List.replicate m 'a') &&
          sigFree sals (List.replicate m 'a')) from rfl]
    rw [sigAt_cons_head_ne sals 'a' _ (by
      intro s hs
      rw [show toLowerA 'a' = 'a' from by decide]
      exact h s hs) hne]
    rw [ih]
    rfl

theorem hasTripleNl_replicate_a (n : Nat) :
    hasTripleNl (List.replicate n 'a') = false := by
  induction n with
  | zero => rfl
  | succ m ih =>
    rw [List.replicate_succ]
    rw [show hasTripleNl ('a' :: List.replicate m 'a') =
        ((decide ('a' = '\n') && decide (2 ≤ nlRun (List.replicate m 'a'))) ||
          hasTripleNl (List.replicate m 'a')) from rfl]
    rw [ih]
    simp

theorem stripWs_replicate_a (n : Nat) :
    stripWs (List.replicate n 'a') = List.replicate n 'a' := by
  unfold stripWs
  rw [List.dropWhile_replicate, if_neg (by decide), List.reverse_replicate,
      List.dropWhile_replicate, if_neg (by decide), List.reverse_replicate]

theorem preprocess_st_replicate_a (n : Nat) :
    preprocess_email_st (List.replicate n 'a') = List.replicate n 'a' := by
  unfold preprocess_email_st removeHeaders removeQuoted
  rw [collapseWS_of_no_nl _ (no_nl_replicate_a n),
      blankIf_replicate_a _ isHeaderLine_replicate_a n,
      blankIf_replicate_a _ isQuoteLine_replicate_a n,
      removeSig_of_sigFree _ _ (sigFree_replicate_a salsSt (by decide) (by decide) n),
      collapseNl_of_no_triple _ (hasTripleNl_replicate_a n),
      stripWs_replicate_a n]

theorem preprocess_tk_replicate_a (n : Nat) :
    preprocess_email_tk (List.replicate n 'a') = List.replicate n 'a' := by
  unfold preprocess_email_tk removeHeaders removeQuoted
  rw [collapseWS_of_no_nl _ (no_nl_replicate_a n),
      blankIf_replicate_a _ isHeaderLine_replicate_a n,
      blankIf_replicate_a _ isQuoteLine_replicate_a n,
      removeSig_of_sigFree _ _ (sigFree_replicate_a salsTk (by decide) (by decide) n),
      stripWs_replicate_a n]


theorem length_truncate60_le (s : List Char) : (truncate60 s).length ≤ 60 := by
  unfold truncate60
  split
  · rw [List.length_append, List.length_take]
    rw [show (str "...").length = 3 from rfl]
    have := Nat.min_le_left 57 s.length
    omega
  · omega

theorem firstLineOr_eq_headD (t : List Char) :
    firstLineOr t = (splitLines (stripWs t)).headD (t.take 60) := by
  unfold firstLineOr
  cases splitLines (stripWs t) <;> rfl

/-- C4 counterexample: the claim takes the first line of the newline-split
raw input, but the code splits the whitespace-stripped input: on "\nHello"
the claimed reading yields the empty first line (so the empty subject),
while both variants return "Hello". -/
theorem claim_C4_counterexample :
    extract_subject_tk (str "\nHello") = str "Hello" ∧
    extract_subject_st (str "\nHello") = str "Hello" ∧
    extractSubjectSpec (str "\nHello") = [] ∧
    str "Hello" ≠ ([] : List Char) :=
  ⟨by decide, by decide, by decide, by decide⟩

/-- C4 (amended): extractSubject strips the whole input of surrounding
whitespace first and then takes the first line of the newline-split
stripped input; that split never returns an empty list, so the raw-text
fallback is unreachable; the line is stripped (the web variant also
removes a leading Subject: label) and a result longer than 60 characters
is cut to its first 57 characters plus "...", so the output never exceeds
60 characters. -/
theorem claim_C4 (t : List Char) :
    extract_subject_tk t =
      truncate60 (stripWs ((splitLines (stripWs t)).headD (t.take 60))) ∧
    extract_subject_st t =
      truncate60 (stripSubjectLabel
        (stripWs ((splitLines (stripWs t)).headD (t.take 60)))) ∧
    splitLines (stripWs t) ≠ [] ∧
    (extract_subject_tk t).length ≤ 60 ∧
    (extract_subject_st t).length ≤ 60 ∧
    (∀ s : List Char, 60 < s.length → truncate60 s = s.take 57 ++ str "...") := by
  refine ⟨?_, ?_, splitLines_ne_nil _, length_truncate60_le _, length_truncate60_le _, ?_⟩
  · unfold extract_subject_tk
    rw [firstLineOr_eq_headD]
  · unfold extract_subject_st
    rw [firstLineOr_eq_headD]
  · intro s hs
    unfold truncate60
    rw [if_pos hs]

theorem claim_C4_witness :
    truncate60 (List.replicate 61 'b') =
      (List.replicate 61 'b').take 57 ++ str "..." ∧
    (extract_subject_tk (str "\nHi")).length ≤ 60 :=
  ⟨(claim_C4 []).2.2.2.2.2 (List.replicate 61 'b')
     (by rw [List.length_replicate]; omega),
   (claim_C4 (str "\nHi")).2.2.2.1⟩

/-- C5 counterexample: the desktop variant's extract_subject performs no
"Subject:" label removal; on the claimed example input it returns the
label-bearing line unchanged instead of "Hello World". -/
theorem claim_C5_counterexample :
    extract_subject_tk (str "Subject: Hello World\nBody...") =
      str "Subject: Hello World" ∧
    str "Subject: Hello World" ≠ str "Hello World" :=
  ⟨by decide, by decide⟩

/-- C5 (amended): the web variant's extractSubject removes a leading
case-insensitive "Subject:" label together with the whitespace that
follows it (in general: on any text starting with an eight-character
prefix that lower-cases to "subject:", the label and following whitespace
are dropped), and on "Subject: Hello World\nBody..." it returns
"Hello World"; the desktop variant performs no such removal and returns
"Subject: Hello World" on the same input. -/
theorem claim_C5 :
    (∀ p r : List Char, p.map toLowerA = str "subject:" →
      stripSubjectLabel (p ++ r) = r.dropWhile isWs) ∧
    extract_subject_st (str "Subject: Hello World\nBody...") =
      str "Hello World" ∧
    extract_subject_tk (str "Subject: Hello World\nBody...") =
      str "Subject: Hello World" := by
  refine ⟨?_, by decide, by decide⟩
  intro p r hp
  have hlen : p.length = 8 := by
    have h2 : (p.map toLowerA).length = (str "subject:").length := by rw [hp]
    rw [List.length_map] at h2
    rw [show (str "subject:").length = 8 from rfl] at h2
    exact h2
  unfold stripSubjectLabel
  rw [show (8 : Nat) = p.length from hlen.symm, List.take_left, List.drop_left]
  rw [if_pos hp]

theorem claim_C5_witness :
    stripSubjectLabel (str "SUBJECT:" ++ str "  Hi") = str "Hi" := by
  have h := (claim_C5).1 (str "SUBJECT:") (str "  Hi") (by decide)
  rw [h]
  decide

theorem removeHeaders_header_line (lab rest b : List Char)
    (hlab : lab ∈ headerLabels) (hnl_a : '\n' ∉ lab ++ ':' :: rest)
    (hnl_b : '\n' ∉ b) (hb : isHeaderLine b = false) :
    removeHeaders ((lab ++ ':' :: rest) ++ '\n' :: b) = '\n' :: b := by
  have hh : isHeaderLine (lab ++ ':' :: rest) = true := by
    rw [isHeaderLine, List.any_eq_true]
    refine ⟨lab, hlab, ?_⟩
    rw [List.isPrefixOf_iff_prefix]
    have he : lab ++ [':'] ++ rest = lab ++ ':' :: rest := by simp
    rw [← he]
    exact List.prefix_append _ _
  unfold removeHeaders blankIf
  rw [splitLines_append _ _ hnl_a, splitLines_of_no_nl _ hnl_b]
  rw [List.map_cons, List.map_cons, List.map_nil]
  rw [hh, hb]
  simp only [if_true, Bool.false_eq_true, if_false]
  rw [joinLines_cons _ _ (by simp)]
  rfl

/-- C6 counterexample: the claim says the desktop variant omits header
stripping entirely, leaving header lines in place; in fact the desktop
`preprocess_email` contains the same header-removal substitution and
deletes the line "From: a". -/
theorem claim_C6_counterexample :
    preprocess_email_tk (str "From: a\nbody") = str "body" ∧
    str "body" ≠ str "From: a\nbody" :=
  ⟨by decide, by decide⟩

/-- C6 (amended): header-line removal (blanking every full line that
begins with `From`, `To`, `Date`, `Subject`, `Cc` or `Bcc` followed by a
colon, case-sensitive) is performed by BOTH variants of
`preprocess_email`: a header line followed by a body line is removed by
the desktop pipeline exactly as by the web pipeline. -/
theorem claim_C6 (lab rest : List Char) (hlab : lab ∈ headerLabels)
    (hr : '\n' ∉ rest) :
    preprocess_email_tk ((lab ++ ':' :: rest) ++ ('\n' :: str "hello")) =
      str "hello" ∧
    preprocess_email_st ((lab ++ ':' :: rest) ++ ('\n' :: str "hello")) =
      str "hello" := by
  have hnl_lab : '\n' ∉ lab := by
    have hall : ∀ l ∈ headerLabels, '\n' ∉ l := by decide
    exact hall lab hlab
  have hnl_a : '\n' ∉ lab ++ ':' :: rest := by
    intro hmem
    rcases List.mem_append.mp hmem with h | h
    · exact hnl_lab h
    · rcases List.mem_cons.mp h with h | h
      · exact absurd h (by decide)
      · exact hr h
  have hcw : collapseWS ((lab ++ ':' :: rest) ++ ('\n' :: str "hello")) =
      (lab ++ ':' :: rest) ++ ('\n' :: str "hello") := by
    rw [collapseWS_append_no_nl _ _ hnl_a,
        collapseWS_cons_nl_none _ (wsStarNl_none_of_no_nl _ (by decide)),
        collapseWS_of_no_nl _ (by decide)]
  have hrh : removeHeaders ((lab ++ ':' :: rest) ++ ('\n' :: str "hello")) =
      '\n' :: str "hello" :=
    removeHeaders_header_line lab rest (str "hello") hlab hnl_a (by decide)
      (by decide)
  constructor
  · unfold preprocess_email_tk
    rw [hcw, hrh]
    decide
  · unfold preprocess_email_st
    rw [hcw, hrh]
    decide

theorem claim_C6_witness :
    preprocess_email_tk ((str "From" ++ ':' :: str " alice") ++
      ('\n' :: str "hello")) = str "hello" ∧
    preprocess_email_st ((str "From" ++ ':' :: str " alice") ++
      ('\n' :: str "hello")) = str "hello" :=
  claim_C6 (str "From") (str " alice") (by decide) (by decide)

/-- C7 counterexample: the claim requires a line consisting solely of a
closing salutation for the signature cut to fire; in the code the
salutation need only end a line: in "Say Thanks\nJohn Doe" no line
consists of a salutation, yet both variants cut from the mid-line
"Thanks" onward instead of leaving the body unchanged. -/
theorem claim_C7_counterexample :
    preprocess_email_st (str "Say Thanks\nJohn Doe") = str "Say" ∧
    preprocess_email_tk (str "Say Thanks\nJohn Doe") = str "Say" ∧
    str "Say" ≠ str "Say Thanks\nJohn Doe" :=
  ⟨by decide, by decide, by decide⟩

/-- C7 (amended): the signature step deletes everything from the first
position (scanning left to right) where a salutation occurrence —
case-insensitive, not necessarily occupying a whole line — is followed by
an optional comma, optional whitespace and a newline; if no position
matches, the text is unchanged by this step; on
"Body text\nBest regards,\nJohn Doe" both variants return "Body text". -/
theorem claim_C7 :
    (∀ (t : List Char) (i : Nat),
      (∀ j, j < i → sigAt salsSt (t.drop j) = false) →
      sigAt salsSt (t.drop i) = true → removeSig salsSt t = t.take i) ∧
    (∀ t : List Char, sigFree salsSt t = true → removeSig salsSt t = t) ∧
    preprocess_email_st (str "Body text\nBest regards,\nJohn Doe") =
      str "Body text" ∧
    preprocess_email_tk (str "Body text\nBest regards,\nJohn Doe") =
      str "Body text" :=
  ⟨removeSig_eq_take salsSt, removeSig_of_sigFree salsSt, by decide, by decide⟩

theorem claim_C7_witness :
    removeSig salsSt (str "a\nThanks\nb") = (str "a\nThanks\nb").take 2 ∧
    removeSig salsSt (str "hello world") = str "hello world" :=
  ⟨(claim_C7).1 (str "a\nThanks\nb") 2 (by decide) (by decide),
   (claim_C7).2.1 (str "hello world") (by decide)⟩

/-- C8 counterexample: the body "  From: x\nbody" has no repeated
structure, yet preprocessBody is not idempotent on it in either variant:
the final whitespace strip exposes a header line (the leading spaces kept
it from matching the line-anchored header pattern) that only a second run
removes. -/
theorem claim_C8_counterexample :
    preprocess_email_st (preprocess_email_st (str "  From: x\nbody")) ≠
      preprocess_email_st (str "  From: x\nbody") ∧
    preprocess_email_tk (preprocess_email_tk (str "  From: x\nbody")) ≠
      preprocess_email_tk (str "  From: x\nbody") :=
  ⟨by decide, by decide⟩

/-- C8 (amended): preprocessBody is not idempotent in general — the final
strip can expose a header line that only a second run removes — but
re-running the web variant on its own output returns that output
unchanged whenever the first output contains no header-label line, no
quoted line, no salutation occurrence completing the signature pattern,
no whitespace run that the blank-line collapse would rewrite, and no
three consecutive newlines. -/
theorem claim_C8 (t : List Char)
    (h1 : (splitLines (preprocess_email_st t)).all
      (fun l => !isHeaderLine l) = true)
    (h2 : (splitLines (preprocess_email_st t)).all
      (fun l => !isQuoteLine l) = true)
    (h3 : sigFree salsSt (preprocess_email_st t) = true)
    (h4 : wsCollapsedOk (preprocess_email_st t) = true)
    (h5 : hasTripleNl (preprocess_email_st t) = false) :
    preprocess_email_st (preprocess_email_st t) = preprocess_email_st t := by
  have hstrip : stripWs (preprocess_email_st t) = preprocess_email_st t := by
    show stripWs (stripWs (collapseNl (removeSig salsSt (removeQuoted
      (removeHeaders (collapseWS t)))))) = _
    rw [stripWs_idem]
    rfl
  show stripWs (collapseNl (removeSig salsSt (removeQuoted (removeHeaders
    (collapseWS (preprocess_email_st t)))))) = preprocess_email_st t
  rw [collapseWS_fix _ h4]
  rw [show removeHeaders (preprocess_email_st t) = preprocess_email_st t from
    blankIf_id _ _ (fun l hl => by
      have := List.all_eq_true.mp h1 l hl
      simpa using this)]
  rw [show removeQuoted (preprocess_email_st t) = preprocess_email_st t from
    blankIf_id _ _ (fun l hl => by
      have := List.all_eq_true.mp h2 l hl
      simpa using this)]
  rw [removeSig_of_sigFree _ _ h3]
  rw [collapseNl_of_no_triple _ h5]
  exact hstrip

theorem claim_C8_witness :
    preprocess_email_st (preprocess_email_st
      (str "Hello team\n\nPlease review")) =
      preprocess_email_st (str "Hello team\n\nPlease review") :=
  claim_C8 (str "Hello team\n\nPlease review") (by decide) (by decide)
    (by decide) (by decide) (by decide)

attribute [irreducible] preprocess_email_st preprocess_email_tk

attribute [irreducible] extract_subject_st extract_subject_tk

theorem summarize_st_of_ok_cons (t : List Char) (cap : Capability)
    (c : Candidate) (rest : List Candidate)
    (h : cap genParams (truncate1024 (preprocess_email_st t)) =
      Except.ok (c :: rest)) :
    summarize_email_st t cap =
      ⟨extract_subject_st t, c.summary_text, true,
       decide (1024 < (preprocess_email_st t).length),
       [(truncate1024 (preprocess_email_st t), genParams)]⟩ := by
  simp only [summarize_email_st]
  generalize extract_subject_st t = S
  generalize hP : preprocess_email_st t = P
  rw [hP] at h
  rw [h]

theorem summarize_st_of_error (t : List Char) (cap : Capability) (e : List Char)
    (h : cap genParams (truncate1024 (preprocess_email_st t)) = Except.error e) :
    summarize_email_st t cap =
      ⟨extract_subject_st t, str "Error generating summary: " ++ e, false,
       decide (1024 < (preprocess_email_st t).length),
       [(truncate1024 (preprocess_email_st t), genParams)]⟩ := by
  simp only [summarize_email_st]
  generalize extract_subject_st t = S
  generalize hP : preprocess_email_st t = P
  rw [hP] at h
  rw [h]

theorem summarize_tk_of_ok_cons (t : List Char) (cap : Capability)
    (c : Candidate) (rest : List Candidate)
    (h : cap genParams (truncate1024 (preprocess_email_tk t)) =
      Except.ok (c :: rest)) :
    summarize_email_tk t cap =
      ⟨extract_subject_tk t, c.summary_text, true, false,
       [(truncate1024 (preprocess_email_tk t), genParams)]⟩ := by
  simp only [summarize_email_tk]
  generalize extract_subject_tk t = S
  generalize hP : preprocess_email_tk t = P
  rw [hP] at h
  rw [h]

theorem summarize_tk_of_error (t : List Char) (cap : Capability) (e : List Char)
    (h : cap genParams (truncate1024 (preprocess_email_tk t)) = Except.error e) :
    summarize_email_tk t cap =
      ⟨extract_subject_tk t, str "Failed to summarize the email:\n" ++ e, false,
       false, [(truncate1024 (preprocess_email_tk t), genParams)]⟩ := by
  simp only [summarize_email_tk]
  generalize extract_subject_tk t = S
  generalize hP : preprocess_email_tk t = P
  rw [hP] at h
  rw [h]

theorem summarize_st_calls (t : List Char) (cap : Capability) :
    (summarize_email_st t cap).calls =
      [(truncate1024 (preprocess_email_st t), genParams)] := by
  simp only [summarize_email_st]
  generalize extract_subject_st t = S
  generalize preprocess_email_st t = P
  rcases h : cap genParams (truncate1024 P) with cands | e
  · rfl
  · cases e <;> rfl

theorem summarize_tk_calls (t : List Char) (cap : Capability) :
    (summarize_email_tk t cap).calls =
      [(truncate1024 (preprocess_email_tk t), genParams)] := by
  simp only [summarize_email_tk]
  generalize extract_subject_tk t = S
  generalize preprocess_email_tk t = P
  rcases h : cap genParams (truncate1024 P) with cands | e
  · rfl
  · cases e <;> rfl

theorem summarize_tk_truncWarned (t : List Char) (cap : Capability) :
    (summarize_email_tk t cap).truncWarned = false := by
  simp only [summarize_email_tk]
  generalize extract_subject_tk t = S
  generalize preprocess_email_tk t = P
  rcases h : cap genParams (truncate1024 P) with cands | e
  · rfl
  · cases e <;> rfl

theorem length_truncate1024_le (t : List Char) : (truncate1024 t).length ≤ 1024 := by
  unfold truncate1024
  split
  · simp
  · omega

theorem summarize_st_truncWarned (t : List Char) (cap : Capability) :
    (summarize_email_st t cap).truncWarned =
      decide (1024 < (preprocess_email_st t).length) := by
  simp only [summarize_email_st]
  generalize extract_subject_st t = S
  generalize preprocess_email_st t = P
  rcases h : cap genParams (truncate1024 P) with cands | e
  · rfl
  · cases e <;> rfl

/-- C10: for every input string, the output of `preprocess_email` is never
longer than its input, in both variants: every transform either deletes
matched text or replaces it with something no longer, and the final strip
only removes characters. -/
theorem claim_C10 (t : List Char) :
    (preprocess_email_st t).length ≤ t.length ∧
      (preprocess_email_tk t).length ≤ t.length :=
  ⟨length_preprocess_st_le t, length_preprocess_tk_le t⟩

/-- C2: both variants invoke the capability with `max_length=150`,
`min_length=30`, `do_sample=False`, and on success return the
`summary_text` of the capability's first returned candidate with the
success flag set. -/
theorem claim_C2 (t : List Char) (cap : Capability) :
    (∀ p ∈ (summarize_email_st t cap).calls,
       p.2.max_length = 150 ∧ p.2.min_length = 30 ∧ p.2.do_sample = false) ∧
    (∀ p ∈ (summarize_email_tk t cap).calls,
       p.2.max_length = 150 ∧ p.2.min_length = 30 ∧ p.2.do_sample = false) ∧
    (∀ (c : Candidate) (rest : List Candidate),
       cap genParams (truncate1024 (preprocess_email_st t)) =
         Except.ok (c :: rest) →
       (summarize_email_st t cap).success = true ∧
       (summarize_email_st t cap).summary = c.summary_text) ∧
    (∀ (c : Candidate) (rest : List Candidate),
       cap genParams (truncate1024 (preprocess_email_tk t)) =
         Except.ok (c :: rest) →
       (summarize_email_tk t cap).success = true ∧
       (summarize_email_tk t cap).summary = c.summary_text) := by
  refine ⟨?_, ?_, ?_, ?_⟩
  · intro p hp
    rw [summarize_st_calls] at hp
    rw [List.mem_singleton.mp hp]
    exact ⟨rfl, rfl, rfl⟩
  · intro p hp
    rw [summarize_tk_calls] at hp
    rw [List.mem_singleton.mp hp]
    exact ⟨rfl, rfl, rfl⟩
  · intro c rest h
    rw [summarize_st_of_ok_cons t cap c rest h]
    exact ⟨rfl, rfl⟩
  · intro c rest h
    rw [summarize_tk_of_ok_cons t cap c rest h]
    exact ⟨rfl, rfl⟩

theorem claim_C2_witness :
    (summarize_email_st (str "hello") okCap).success = true ∧
    (summarize_email_st (str "hello") okCap).summary = str "short summary" :=
  (claim_C2 (str "hello") okCap).2.2.1 ⟨str "short summary"⟩ [] rfl

/-- C3: when the capability raises (modelled as `Except.error e`), both
variants return a failed result whose message embeds the underlying error
description, make exactly one capability invocation (no retry), and the
failure is delivered as a value rather than an exception (the embedding is
a total function into `SummOut`). -/
theorem claim_C3 (t : List Char) (cap : Capability) (e : List Char) :
    (cap genParams (truncate1024 (preprocess_email_st t)) = Except.error e →
      (summarize_email_st t cap).success = false ∧
      (summarize_email_st t cap).summary =
        str "Error generating summary: " ++ e ∧
      (summarize_email_st t cap).calls.length = 1) ∧
    (cap genParams (truncate1024 (preprocess_email_tk t)) = Except.error e →
      (summarize_email_tk t cap).success = false ∧
      (summarize_email_tk t cap).summary =
        str "Failed to summarize the email:\n" ++ e ∧
      (summarize_email_tk t cap).calls.length = 1) := by
  constructor
  · intro h
    rw [summarize_st_of_error t cap e h]
    exact ⟨rfl, rfl, rfl⟩
  · intro h
    rw [summarize_tk_of_error t cap e h]
    exact ⟨rfl, rfl, rfl⟩

theorem claim_C3_witness :
    (summarize_email_st (str "hi") failCap).success = false ∧
    (summarize_email_st (str "hi") failCap).summary =
      str "Error generating summary: " ++ str "boom" ∧
    (summarize_email_st (str "hi") failCap).calls.length = 1 :=
  (claim_C3 (str "hi") failCap (str "boom")).1 rfl

/-- C1 counterexample: the claim says `summarize` surfaces a caller-visible
truncation warning whenever the preprocessed body exceeds 1024 characters,
but on a 2000-character body the desktop variant truncates the capability
input to 1024 characters silently — no warning signal exists on that code
path. -/
theorem claim_C1_counterexample :
    (summarize_email_tk (List.replicate 2000 'a') okCap).calls =
      [(List.replicate 1024 'a', genParams)] ∧
    (summarize_email_tk (List.replicate 2000 'a') okCap).truncWarned = false := by
  constructor
  · rw [summarize_tk_calls, preprocess_tk_replicate_a]
    rw [show truncate1024 (List.replicate 2000 'a') = List.replicate 1024 'a' by
      unfold truncate1024
      rw [if_pos (by rw [List.length_replicate]; omega)]
      rw [List.take_replicate, Nat.min_eq_left (by omega)]]
  · exact summarize_tk_truncWarned _ _

/-- C1 (amended): in both variants the string passed to the capability
never exceeds 1024 characters, and a preprocessed body longer than 1024
characters is cut to its first 1024 characters; the web variant surfaces a
truncation warning when this happens, while the desktop variant truncates
silently. -/
theorem claim_C1 (t : List Char) (cap : Capability) :
    (∀ p ∈ (summarize_email_st t cap).calls, p.1.length ≤ 1024) ∧
    (∀ p ∈ (summarize_email_tk t cap).calls, p.1.length ≤ 1024) ∧
    (1024 < (preprocess_email_st t).length →
      (summarize_email_st t cap).calls =
        [((preprocess_email_st t).take 1024, genParams)] ∧
      (summarize_email_st t cap).truncWarned = true) ∧
    (1024 < (preprocess_email_tk t).length →
      (summarize_email_tk t cap).calls =
        [((preprocess_email_tk t).take 1024, genParams)] ∧
      (summarize_email_tk t cap).truncWarned = false) := by
  refine ⟨?_, ?_, ?_, ?_⟩
  · intro p hp
    rw [summarize_st_calls] at hp
    rw [List.mem_singleton.mp hp]
    show (truncate1024 (preprocess_email_st t)).length ≤ 1024
    exact length_truncate1024_le _
  · intro p hp
    rw [summarize_tk_calls] at hp
    rw [List.mem_singleton.mp hp]
    show (truncate1024 (preprocess_email_tk t)).length ≤ 1024
    exact length_truncate1024_le _
  · intro hgt
    constructor
    · rw [summarize_st_calls]
      unfold truncate1024
      rw [if_pos hgt]
    · rw [summarize_st_truncWarned]
      exact decide_eq_true hgt
  · intro hgt
    constructor
    · rw [summarize_tk_calls]
      unfold truncate1024
      rw [if_pos hgt]
    · exact summarize_tk_truncWarned _ _

theorem claim_C1_witness :
    (summarize_email_st (List.replicate 2000 'a') okCap).calls =
      [((preprocess_email_st (List.replicate 2000 'a')).take 1024, genParams)] ∧
    (summarize_email_st (List.replicate 2000 'a') okCap).truncWarned = true :=
  (claim_C1 (List.replicate 2000 'a') okCap).2.2.1 (by
    rw [preprocess_st_replicate_a, List.length_replicate]
    omega)
